import Mathlib

/-!
Shallow embedding of the mygrep regular-expression core: the pattern node
variants (Symbol, Concatenation), the mark-propagation matching algorithm
from pattern.c, the recursive-descent parser and the command-line pattern
validation from mygrep.c, and the mark-reporting routine.  Mark vectors are
lists of booleans of length n + 1 for an input line of length n.
-/

set_option maxHeartbeats 1000000

/-- Pattern trees: the two implemented node variants of the engine. -/
inductive Pattern where
  | symbol (sym : Char) : Pattern
  | concatenation (p1 p2 : Pattern) : Pattern
deriving DecidableEq, Repr

/-- Embedding of matchSymbolPattern from pattern.c: after[0] = false and
after[i + 1] = before[i] AND str[i] == sym. -/
def matchSymbolPattern (sym : Char) (str : List Char) (before : List Bool) : List Bool :=
  false :: List.zipWith (fun b c => b && (c == sym)) before str

/-- Embedding of matchConcatenationPattern from pattern.c: match the first
sub-pattern producing the mid marks, then match the second from those. -/
def matchConcatenationPattern (matchP1 matchP2 : List Char → List Bool → List Bool)
    (str : List Char) (before : List Bool) : List Bool :=
  matchP2 str (matchP1 str before)

/-- Virtual dispatch of the match operation over the pattern tree. -/
def matchPattern : Pattern → List Char → List Bool → List Bool
  | Pattern.symbol sym, str, before => matchSymbolPattern sym str before
  | Pattern.concatenation p1 p2, str, before =>
      matchConcatenationPattern (matchPattern p1) (matchPattern p2) str before

/-- The terminating NUL character of a C string. -/
def NUL : Char := Char.ofNat 0

/-- The character printed for one mark slot by reportMarks. -/
def markChar (b : Bool) : Char := if b then '*' else ' '

/-- Embedding of reportMarks from pattern.c: while str[i] is not NUL print the
mark slot then the character, finally print the last mark slot and a newline. -/
def reportMarks : List Char → List Bool → List Char
  | [], marks => [markChar (marks.headD false), '\n']
  | c :: rest, marks => markChar (marks.headD false) :: c :: reportMarks rest marks.tail

/-- The metacharacter list ".^$*?+|()[{" that strchr searches in ordinary. -/
def metacharacters : List Char :=
  ['.', '^', '$', '*', '?', '+', '|', '(', ')', '[', '{']

/-- Embedding of ordinary from mygrep.c.  strchr also finds the terminating
NUL of its subject string, so NUL is classified as non-ordinary as well. -/
def ordinary (c : Char) : Bool :=
  !(metacharacters.contains c || c == NUL)

/-- Reading str[pos] of a C string: past the end of the character list the
terminating NUL is read. -/
def charAt (str : List Char) (pos : Nat) : Char :=
  str.getD pos NUL

/-- Embedding of parseAtomicPattern from mygrep.c: an ordinary character
yields a Symbol node and advances the cursor; anything else is an invalid
pattern, modelled as none. -/
def parseAtomicPattern (str : List Char) (pos : Nat) : Option (Pattern × Nat) :=
  if ordinary (charAt str pos) then some (Pattern.symbol (charAt str pos), pos + 1)
  else none

/-- Embedding of parseRepetition from mygrep.c: currently a pass-through to
the atomic level. -/
def parseRepetition (str : List Char) (pos : Nat) : Option (Pattern × Nat) :=
  parseAtomicPattern str pos

/-- A successful parseRepetition advances the cursor by exactly one. -/
lemma parseRepetition_advance {str : List Char} {pos : Nat} {p : Pattern} {pos2 : Nat}
    (h : parseRepetition str pos = some (p, pos2)) : pos2 = pos + 1 := by
  unfold parseRepetition parseAtomicPattern at h
  split at h
  · simp only [Option.some.injEq, Prod.mk.injEq] at h
    exact h.2.symm
  · simp at h

/-- A non-NUL character read at the cursor lies inside the string. -/
lemma charAt_lt_length {str : List Char} {pos : Nat} (h : charAt str pos ≠ NUL) :
    pos < str.length := by
  by_contra hc
  push_neg at hc
  exact h (by simp [charAt, List.getD, List.getElem?_eq_none hc])

/-- The while loop of parseConcatenation from mygrep.c: with p1 already
parsed, keep parsing repetition-level patterns while the next character is
neither end-of-string, nor a vertical bar, nor a closing parenthesis,
folding each new pattern into a Concatenation node on the left. -/
def parseConcatRest (str : List Char) (p1 : Pattern) (pos : Nat) : Option (Pattern × Nat) :=
  if hc : charAt str pos ≠ NUL ∧ charAt str pos ≠ '|' ∧ charAt str pos ≠ ')' then
    match hp : parseRepetition str pos with
    | none => none
    | some (p2, pos2) => parseConcatRest str (Pattern.concatenation p1 p2) pos2
  else some (p1, pos)
termination_by str.length - pos
decreasing_by
  have h1 := parseRepetition_advance hp
  have h2 := charAt_lt_length hc.1
  omega

/-- Embedding of parseConcatenation from mygrep.c. -/
def parseConcatenation (str : List Char) (pos : Nat) : Option (Pattern × Nat) :=
  match parseRepetition str pos with
  | none => none
  | some (p1, pos1) => parseConcatRest str p1 pos1

/-- Embedding of parseAlternation from mygrep.c: currently a pass-through to
the concatenation level. -/
def parseAlternation (str : List Char) (pos : Nat) : Option (Pattern × Nat) :=
  parseConcatenation str pos

/-- Contribution of one character to the bracket-balance counter of main. -/
def bracketDelta (c : Char) : Int :=
  if c = '[' ∨ c = '(' ∨ c = '{' then 1
  else if c = ']' ∨ c = ')' ∨ c = '}' then -1
  else 0

/-- The net bracket count that main computes over the whole pattern string. -/
def bracketCount (str : List Char) : Int :=
  str.foldl (fun acc c => acc + bracketDelta c) 0

/-- The leading-metacharacter test of main on argv[1][0]. -/
def leadingMetaCheck (str : List Char) : Bool :=
  charAt str 0 == '*' || charAt str 0 == '+' || charAt str 0 == '|'

/-- The pattern validation performed by main before parsing: reject a leading
asterisk, plus or vertical bar, and reject a nonzero net bracket count. -/
def mainValidates (str : List Char) : Bool :=
  !leadingMetaCheck str && (bracketCount str == 0)

/-- Declarative matching semantics, written from the words of the
specification for the refinement claim: a Symbol matches exactly its one
character, a Concatenation matches any split into a match of the left
sub-pattern followed by a match of the right sub-pattern. -/
def Matches : Pattern → List Char → Prop
  | Pattern.symbol sym, s => s = [sym]
  | Pattern.concatenation p1 p2, s =>
      ∃ s1 s2, s = s1 ++ s2 ∧ Matches p1 s1 ∧ Matches p2 s2

/-- The input substring spanning boundary positions j..i. -/
def spanSubstring (str : List Char) (j i : Nat) : List Char :=
  (str.drop j).take (i - j)

/-- Left-nested concatenation of a pattern with a run of further symbols,
the shape the concatenation parser level builds. -/
def leftNested (p : Pattern) (cs : List Char) : Pattern :=
  cs.foldl (fun acc c => Pattern.concatenation acc (Pattern.symbol c)) p

/-! ## Basic facts about the matcher -/

/-- The mark vector a Symbol node produces never marks position 0. -/
lemma matchSymbolPattern_getD_zero (sym : Char) (str : List Char) (before : List Bool) :
    (matchSymbolPattern sym str before).getD 0 false = false := rfl

/-- Indexing the zipped core of the Symbol matcher. -/
lemma getD_zipWith_matchSym (sym : Char) :
    ∀ (bs : List Bool) (cs : List Char) (i : Nat), i < bs.length → i < cs.length →
      (List.zipWith (fun b c => b && (c == sym)) bs cs).getD i false
        = (bs.getD i false && (cs.getD i NUL == sym)) := by
  intro bs
  induction bs with
  | nil => intro cs i h1 _; simp at h1
  | cons b bs ih =>
    intro cs i h1 h2
    cases cs with
    | nil => simp at h2
    | cons c cs =>
      cases i with
      | zero => simp
      | succ n =>
        simp only [List.zipWith_cons_cons, List.getD_cons_succ]
        exact ih cs n (by simpa using h1) (by simpa using h2)

/-- Matching preserves the length of the mark vector. -/
lemma length_matchPattern (p : Pattern) :
    ∀ (str : List Char) (before : List Bool), before.length = str.length + 1 →
      (matchPattern p str before).length = str.length + 1 := by
  induction p with
  | symbol sym =>
    intro str before h
    simp only [matchPattern, matchSymbolPattern, List.length_cons, List.length_zipWith, h]
    omega
  | concatenation p1 p2 ih1 ih2 =>
    intro str before h
    simp only [matchPattern, matchConcatenationPattern]
    exact ih2 str _ (ih1 str before h)

/-! ## Facts about substrings between boundary positions -/

/-- The substring from a boundary to itself is empty. -/
lemma spanSubstring_refl (str : List Char) (j : Nat) : spanSubstring str j j = [] := by
  simp [spanSubstring]

/-- Length of a substring whose bounds lie inside the line. -/
lemma length_spanSubstring (str : List Char) (j i : Nat) (h1 : j ≤ i) (h2 : i ≤ str.length) :
    (spanSubstring str j i).length = i - j := by
  simp only [spanSubstring, List.length_take, List.length_drop]
  omega

/-- The one-character substring at position i. -/
lemma spanSubstring_single (str : List Char) (i : Nat) (h : i < str.length) :
    spanSubstring str i (i + 1) = [str.getD i NUL] := by
  unfold spanSubstring
  rw [show i + 1 - i = 1 by omega, List.drop_eq_getElem_cons h, List.getD_eq_getElem str NUL h]
  rfl

/-- A substring splits at any interior boundary. -/
lemma spanSubstring_append (str : List Char) (j k i : Nat) (h1 : j ≤ k) (h2 : k ≤ i) :
    spanSubstring str j i = spanSubstring str j k ++ spanSubstring str k i := by
  unfold spanSubstring
  rw [show i - j = (k - j) + (i - k) by omega, List.take_add]
  congr 2
  rw [List.drop_drop, show j + (k - j) = k by omega]

/-- Any split of a substring into two parts happens at a boundary position. -/
lemma spanSubstring_split (str : List Char) (j i : Nat) (s1 s2 : List Char)
    (hj : j ≤ i) (hi : i ≤ str.length) (heq : spanSubstring str j i = s1 ++ s2) :
    j + s1.length ≤ i ∧ s1 = spanSubstring str j (j + s1.length) ∧
      s2 = spanSubstring str (j + s1.length) i := by
  have hlen : (spanSubstring str j i).length = i - j := length_spanSubstring str j i hj hi
  rw [heq, List.length_append] at hlen
  have hk : j + s1.length ≤ i := by omega
  have heq2 : (str.drop j).take (i - j) = s1 ++ s2 := heq
  refine ⟨hk, ?_, ?_⟩
  · have h3 : spanSubstring str j (j + s1.length)
        = ((str.drop j).take (i - j)).take s1.length := by
      unfold spanSubstring
      rw [List.take_take]
      congr 1
      omega
    rw [h3, heq2, List.take_left]
  · have h3 : spanSubstring str (j + s1.length) i
        = ((str.drop j).take (i - j)).drop s1.length := by
      unfold spanSubstring
      rw [List.drop_take, List.drop_drop]
      congr 1
      omega
    rw [h3, heq2, List.drop_left]

/-! ## Theorems for the easy claims -/

/-- C3: for every Concatenation pattern of sub-patterns p1 and p2, every
input line, and every before vector, match composes the matches of the
sub-patterns: it computes the mid marks with p1 and feeds them to p2. -/
theorem matchConcatenation_composes (p1 p2 : Pattern) (str : List Char) (before : List Bool) :
    matchPattern (Pattern.concatenation p1 p2) str before
      = matchPattern p2 str (matchPattern p1 str before) := rfl

/-- C4: concatenation is associative in effect: grouping three patterns to
the left or to the right yields the same after vector on every line and
every before vector. -/
theorem matchConcatenation_assoc (p1 p2 p3 : Pattern) (str : List Char) (before : List Bool) :
    matchPattern (Pattern.concatenation (Pattern.concatenation p1 p2) p3) str before
      = matchPattern (Pattern.concatenation p1 (Pattern.concatenation p2 p3)) str before := rfl

/-- C10: parsing the empty pattern string fails: the terminating NUL at the
cursor is found by strchr in the metacharacter list, so it is non-ordinary
and the atomic level rejects it, yielding no pattern tree. -/
theorem parse_empty_invalid :
    ordinary NUL = false ∧ parseAlternation [] 0 = none := ⟨rfl, rfl⟩

/-- C6: a pattern beginning with an asterisk, a plus or a vertical bar is
rejected as invalid: the parser has no fallback production for a
metacharacter in atomic position, and main also rejects such a first
character, so each of the three one-character patterns yields no tree. -/
theorem leading_metachar_invalid :
    (∀ (str : List Char),
        charAt str 0 = '*' ∨ charAt str 0 = '+' ∨ charAt str 0 = '|' →
        parseAlternation str 0 = none ∧ mainValidates str = false) ∧
    parseAlternation ['*'] 0 = none ∧ parseAlternation ['+'] 0 = none ∧
    parseAlternation ['|'] 0 = none := by
  refine ⟨?_, rfl, rfl, rfl⟩
  intro str h
  constructor
  · unfold parseAlternation parseConcatenation parseRepetition parseAtomicPattern
    rcases h with h | h | h <;> rw [h] <;> rfl
  · unfold mainValidates leadingMetaCheck
    rcases h with h | h | h <;> rw [h] <;> rfl

/-- C7: a pattern string whose net bracket count over square brackets,
parentheses and braces is nonzero is rejected as an invalid pattern by the
validation in main. -/
theorem unbalanced_brackets_invalid (str : List Char) (h : bracketCount str ≠ 0) :
    mainValidates str = false := by
  unfold mainValidates
  rw [beq_eq_false_iff_ne.mpr h]
  exact Bool.and_false _

/-- Witness for C7 at the unbalanced input "(b". -/
theorem unbalanced_brackets_invalid_witness :
    bracketCount ['(', 'b'] ≠ 0 ∧ mainValidates ['(', 'b'] = false :=
  ⟨by decide, unbalanced_brackets_invalid ['(', 'b'] (by decide)⟩

/-! ## Refinement of the matcher against the declarative semantics -/

/-- The central reachability characterization: position i carries a mark
after matching exactly when some marked earlier boundary j starts a
substring j..i that the pattern tree matches. -/
lemma matchPattern_getD_iff (p : Pattern) :
    ∀ (str : List Char) (before : List Bool), before.length = str.length + 1 →
      ∀ i, i ≤ str.length →
        ((matchPattern p str before).getD i false = true ↔
          ∃ j, j ≤ i ∧ before.getD j false = true ∧ Matches p (spanSubstring str j i)) := by
  induction p with
  | symbol sym =>
    intro str before hlen i hi
    cases i with
    | zero =>
      constructor
      · intro h
        have h0 : (matchSymbolPattern sym str before).getD 0 false = true := h
        rw [matchSymbolPattern_getD_zero sym str before] at h0
        cases h0
      · rintro ⟨j, hj, _, hm⟩
        obtain rfl : j = 0 := by omega
        rw [spanSubstring_refl] at hm
        simp only [Matches] at hm
        cases hm
    | succ m =>
      have hm2 : m < str.length := by omega
      show ((matchSymbolPattern sym str before).getD (m + 1) false = true ↔ _)
      unfold matchSymbolPattern
      rw [List.getD_cons_succ,
        getD_zipWith_matchSym sym before str m (by omega) hm2]
      constructor
      · intro h
        rw [Bool.and_eq_true] at h
        obtain ⟨hb, hc⟩ := h
        refine ⟨m, by omega, hb, ?_⟩
        rw [spanSubstring_single str m hm2]
        simp only [Matches, List.cons.injEq, and_true]
        exact beq_iff_eq.mp hc
      · rintro ⟨j, hj, hb, hm⟩
        simp only [Matches] at hm
        have hlen2 : (spanSubstring str j (m + 1)).length = m + 1 - j :=
          length_spanSubstring str j (m + 1) hj (by omega)
        rw [hm, List.length_singleton] at hlen2
        have hjm : j = m := by omega
        rw [hjm] at hb hm
        rw [spanSubstring_single str m hm2] at hm
        simp only [List.cons.injEq, and_true] at hm
        rw [hb, hm]
        simp
  | concatenation p1 p2 ih1 ih2 =>
    intro str before hlen i hi
    have hmidlen := length_matchPattern p1 str before hlen
    show ((matchPattern p2 str (matchPattern p1 str before)).getD i false = true ↔ _)
    rw [ih2 str (matchPattern p1 str before) hmidlen i hi]
    constructor
    · rintro ⟨k, hk, hmid, hmatch2⟩
      rw [ih1 str before hlen k (by omega)] at hmid
      obtain ⟨j, hj, hb, hmatch1⟩ := hmid
      refine ⟨j, by omega, hb, ?_⟩
      show ∃ s1 s2, spanSubstring str j i = s1 ++ s2 ∧ Matches p1 s1 ∧ Matches p2 s2
      exact ⟨spanSubstring str j k, spanSubstring str k i,
        spanSubstring_append str j k i hj hk, hmatch1, hmatch2⟩
    · rintro ⟨j, hj, hb, hmatch⟩
      obtain ⟨s1, s2, heq, hmatch1, hmatch2⟩ := hmatch
      obtain ⟨hk, hs1, hs2⟩ := spanSubstring_split str j i s1 s2 hj hi heq
      refine ⟨j + s1.length, hk, ?_, ?_⟩
      · rw [ih1 str before hlen (j + s1.length) (by omega)]
        exact ⟨j, by omega, hb, by rw [← hs1]; exact hmatch1⟩
      · rw [← hs2]
        exact hmatch2

/-- C1: for every pattern tree built from Symbol and Concatenation nodes,
every input line of length n, and every before mark vector of length n + 1,
match returns an after vector of length n + 1 whose entry at boundary i is
true exactly when some j at most i has before[j] true and the tree matches
the input substring spanning positions j..i. -/
theorem matchPattern_marks_reachability (p : Pattern) (str : List Char) (before : List Bool)
    (hlen : before.length = str.length + 1) :
    (matchPattern p str before).length = str.length + 1 ∧
    ∀ i, i ≤ str.length →
      ((matchPattern p str before).getD i false = true ↔
        ∃ j, j ≤ i ∧ before.getD j false = true ∧ Matches p (spanSubstring str j i)) :=
  ⟨length_matchPattern p str before hlen, matchPattern_getD_iff p str before hlen⟩

/-- Witness for C1: the pattern bc on the line abc with an all-true seed. -/
theorem matchPattern_marks_reachability_witness :
    ([true, true, true, true].length = ['a', 'b', 'c'].length + 1) ∧
    ((matchPattern (Pattern.concatenation (Pattern.symbol 'b') (Pattern.symbol 'c'))
        ['a', 'b', 'c'] [true, true, true, true]).length = ['a', 'b', 'c'].length + 1 ∧
      ∀ i, i ≤ ['a', 'b', 'c'].length →
        ((matchPattern (Pattern.concatenation (Pattern.symbol 'b') (Pattern.symbol 'c'))
            ['a', 'b', 'c'] [true, true, true, true]).getD i false = true ↔
          ∃ j, j ≤ i ∧ [true, true, true, true].getD j false = true ∧
            Matches (Pattern.concatenation (Pattern.symbol 'b') (Pattern.symbol 'c'))
              (spanSubstring ['a', 'b', 'c'] j i))) :=
  ⟨by decide,
    matchPattern_marks_reachability
      (Pattern.concatenation (Pattern.symbol 'b') (Pattern.symbol 'c'))
      ['a', 'b', 'c'] [true, true, true, true] (by decide)⟩

/-! ## All-false seeding -/

/-- Zipping an all-false mark list through the Symbol rule gives all false. -/
lemma zipWith_matchSym_false (sym : Char) :
    ∀ (bs : List Bool) (cs : List Char), (∀ b ∈ bs, b = false) →
      List.zipWith (fun b c => b && (c == sym)) bs cs
        = List.replicate (min bs.length cs.length) false := by
  intro bs
  induction bs with
  | nil => intro cs _; simp
  | cons b bs ih =>
    intro cs hf
    cases cs with
    | nil => simp
    | cons c cs =>
      have hb : b = false := hf b (by simp)
      have hrest : ∀ x ∈ bs, x = false := fun x hx => hf x (by simp [hx])
      simp only [List.zipWith_cons_cons, hb, Bool.false_and, List.length_cons]
      rw [ih cs hrest, show min (bs.length + 1) (cs.length + 1) = min bs.length cs.length + 1 by omega,
        List.replicate_succ]

/-- C8: for every pattern variant, every input line, and an all-false before
vector of the right length, the after vector that match returns is all-false. -/
theorem matchPattern_allFalse (p : Pattern) (str : List Char) (before : List Bool)
    (hlen : before.length = str.length + 1) (hfalse : ∀ b ∈ before, b = false) :
    matchPattern p str before = List.replicate (str.length + 1) false := by
  induction p generalizing before with
  | symbol sym =>
    show matchSymbolPattern sym str before = _
    unfold matchSymbolPattern
    rw [zipWith_matchSym_false sym before str hfalse, hlen,
      show min (str.length + 1) str.length = str.length by omega, List.replicate_succ]
  | concatenation p1 p2 ih1 ih2 =>
    show matchPattern p2 str (matchPattern p1 str before) = _
    rw [ih1 before hlen hfalse]
    exact ih2 (List.replicate (str.length + 1) false) (by simp)
      (fun b hb => List.eq_of_mem_replicate hb)

/-- Witness for C8: both variants on the line ab with the all-false seed. -/
theorem matchPattern_allFalse_witness :
    ([false, false, false].length = ['a', 'b'].length + 1) ∧
    ((∀ b ∈ [false, false, false], b = false)) ∧
    matchPattern (Pattern.concatenation (Pattern.symbol 'a') (Pattern.symbol 'b'))
        ['a', 'b'] [false, false, false]
      = List.replicate (['a', 'b'].length + 1) false :=
  ⟨by decide, by decide,
    matchPattern_allFalse (Pattern.concatenation (Pattern.symbol 'a') (Pattern.symbol 'b'))
      ['a', 'b'] [false, false, false] (by decide) (by decide)⟩

/-! ## Counting the true marks of a Symbol match -/

/-- The number of true entries produced by the Symbol rule equals the number
of positions whose before mark is true and whose character is the symbol. -/
lemma count_zipWith_matchSym (sym : Char) :
    ∀ (bs : List Bool) (cs : List Char),
      (List.zipWith (fun b c => b && (c == sym)) bs cs).count true
        = ((List.range (min bs.length cs.length)).filter
            (fun i => bs.getD i false && (cs.getD i NUL == sym))).length := by
  intro bs
  induction bs with
  | nil => intro cs; simp
  | cons b bs ih =>
    intro cs
    cases cs with
    | nil => simp
    | cons c cs =>
      simp only [List.zipWith_cons_cons, List.length_cons]
      rw [List.count_cons,
        show min (bs.length + 1) (cs.length + 1) = min bs.length cs.length + 1 by omega,
        List.range_succ_eq_map, List.filter_cons]
      have hmap : List.filter
            (fun i => (b :: bs).getD i false && ((c :: cs).getD i NUL == sym))
            (List.map Nat.succ (List.range (min bs.length cs.length)))
          = List.map Nat.succ (List.filter
              (fun i => bs.getD i false && (cs.getD i NUL == sym))
              (List.range (min bs.length cs.length))) := by
        rw [List.filter_map]
        congr 1
      rw [hmap, ih cs]
      by_cases hbc : (b && (c == sym)) = true
      · simp [hbc, Nat.add_comm]
      · rw [Bool.not_eq_true] at hbc
        simp [hbc]

/-- C2: for every Symbol pattern, line of length n and before vector of
length n + 1, match clears position 0, sets position i + 1 to before[i] AND
str[i] == c for each i below n, and consequently the after vector carries
exactly as many true entries as there are positions whose before mark is
true and whose character equals the symbol. -/
theorem matchSymbolPattern_rule (sym : Char) (str : List Char) (before : List Bool)
    (hlen : before.length = str.length + 1) :
    (matchSymbolPattern sym str before).getD 0 false = false ∧
    (∀ i, i < str.length →
      (matchSymbolPattern sym str before).getD (i + 1) false
        = (before.getD i false && (str.getD i NUL == sym))) ∧
    (matchSymbolPattern sym str before).count true
      = ((List.range str.length).filter
          (fun i => before.getD i false && (str.getD i NUL == sym))).length := by
  refine ⟨matchSymbolPattern_getD_zero sym str before, ?_, ?_⟩
  · intro i hi
    unfold matchSymbolPattern
    rw [List.getD_cons_succ]
    exact getD_zipWith_matchSym sym before str i (by omega) hi
  · unfold matchSymbolPattern
    rw [List.count_cons, count_zipWith_matchSym sym before str, hlen,
      show min (str.length + 1) str.length = str.length by omega]
    simp

/-- Witness for C2: the symbol b on the line abb with an all-true seed. -/
theorem matchSymbolPattern_rule_witness :
    ([true, true, true, true].length = ['a', 'b', 'b'].length + 1) ∧
    ((matchSymbolPattern 'b' ['a', 'b', 'b'] [true, true, true, true]).getD 0 false = false ∧
      (∀ i, i < ['a', 'b', 'b'].length →
        (matchSymbolPattern 'b' ['a', 'b', 'b'] [true, true, true, true]).getD (i + 1) false
          = ([true, true, true, true].getD i false && (['a', 'b', 'b'].getD i NUL == 'b'))) ∧
      (matchSymbolPattern 'b' ['a', 'b', 'b'] [true, true, true, true]).count true
        = ((List.range ['a', 'b', 'b'].length).filter
            (fun i => [true, true, true, true].getD i false
              && (['a', 'b', 'b'].getD i NUL == 'b'))).length) :=
  ⟨by decide, matchSymbolPattern_rule 'b' ['a', 'b', 'b'] [true, true, true, true] (by decide)⟩

/-! ## The end-to-end scenario of pattern b against line abc -/

/-- Counterexample for C9 as stated: matching b against abc with an all-true
seed does mark only boundary 2, but the reporting routine prints the mark of
a boundary directly before the character at that index, so the asterisk lands
directly before the third character c and the printed text does not begin
with the claimed rendering. -/
theorem reportMarks_render_counterexample :
    (reportMarks ['a', 'b', 'c']
        (matchPattern (Pattern.symbol 'b') ['a', 'b', 'c'] [true, true, true, true])).take 5
      ≠ [' ', 'a', '*', 'b', 'c'] := by decide

/-- C9 amended: the after vector is true only at boundary position 2, and
reportMarks renders it as the text " a b*c " followed by a newline, the
asterisk sitting directly before the third character c, the slot of the
boundary immediately after the b. -/
theorem match_b_abc_rendering :
    matchPattern (Pattern.symbol 'b') ['a', 'b', 'c'] [true, true, true, true]
        = [false, false, true, false] ∧
    reportMarks ['a', 'b', 'c'] [false, false, true, false]
        = [' ', 'a', ' ', 'b', '*', 'c', ' ', '\n'] := by decide

/-! ## Behaviour of the concatenation parser level -/

/-- An ordinary character is none of the three loop-stopping characters. -/
lemma ordinary_not_stop {c : Char} (h : ordinary c = true) :
    c ≠ NUL ∧ c ≠ '|' ∧ c ≠ ')' := by
  refine ⟨?_, ?_, ?_⟩ <;> rintro rfl <;> revert h <;> decide

/-- The concatenation loop stops when the cursor reads a stop character. -/
lemma parseConcatRest_stop (str : List Char) (p1 : Pattern) (pos : Nat)
    (h : ¬(charAt str pos ≠ NUL ∧ charAt str pos ≠ '|' ∧ charAt str pos ≠ ')')) :
    parseConcatRest str p1 pos = some (p1, pos) := by
  unfold parseConcatRest
  rw [dif_neg h]

/-- One iteration of the concatenation loop on an ordinary character. -/
lemma parseConcatRest_go (str : List Char) (p1 : Pattern) (pos : Nat)
    (h : charAt str pos ≠ NUL ∧ charAt str pos ≠ '|' ∧ charAt str pos ≠ ')')
    (hord : ordinary (charAt str pos) = true) :
    parseConcatRest str p1 pos
      = parseConcatRest str (Pattern.concatenation p1 (Pattern.symbol (charAt str pos)))
          (pos + 1) := by
  have hrep : parseRepetition str pos = some (Pattern.symbol (charAt str pos), pos + 1) := by
    unfold parseRepetition parseAtomicPattern
    exact if_pos hord
  conv_lhs => unfold parseConcatRest
  rw [dif_pos h]
  split
  · next heq =>
    rw [hrep] at heq
    cases heq
  · next p2 pos2 heq =>
    rw [hrep] at heq
    simp only [Option.some.injEq, Prod.mk.injEq] at heq
    rw [← heq.1, ← heq.2]

/-- Splitting off the first character of a substring. -/
lemma spanSubstring_cons (str : List Char) (pos k : Nat)
    (h1 : pos < str.length) (h2 : pos < k) :
    spanSubstring str pos k = charAt str pos :: spanSubstring str (pos + 1) k := by
  unfold spanSubstring charAt
  rw [List.drop_eq_getElem_cons h1, show k - pos = (k - (pos + 1)) + 1 by omega,
    List.take_succ_cons, List.getD_eq_getElem str NUL h1]

/-- The concatenation loop over a run of ordinary characters ending at a
stop character consumes the whole run and folds it to the left. -/
lemma parseConcatRest_run (str : List Char) :
    ∀ (n pos k : Nat) (p : Pattern), k - pos ≤ n → pos ≤ k →
      (∀ m, pos ≤ m → m < k → ordinary (charAt str m) = true) →
      (charAt str k = NUL ∨ charAt str k = '|' ∨ charAt str k = ')') →
      parseConcatRest str p pos = some (leftNested p (spanSubstring str pos k), k) := by
  intro n
  induction n with
  | zero =>
    intro pos k p hn hpk hord hstop
    obtain rfl : pos = k := by omega
    have hnot : ¬(charAt str pos ≠ NUL ∧ charAt str pos ≠ '|' ∧ charAt str pos ≠ ')') := by
      rcases hstop with h | h | h <;> simp [h]
    rw [parseConcatRest_stop str p pos hnot, spanSubstring_refl]
    rfl
  | succ n ih =>
    intro pos k p hn hpk hord hstop
    by_cases hpos : pos < k
    · have hordp := hord pos le_rfl hpos
      obtain ⟨ha, hb, hc⟩ := ordinary_not_stop hordp
      have hlt : pos < str.length := charAt_lt_length ha
      rw [parseConcatRest_go str p pos ⟨ha, hb, hc⟩ hordp,
        spanSubstring_cons str pos k hlt hpos]
      exact ih (pos + 1) k _ (by omega) (by omega)
        (fun m hm1 hm2 => hord m (by omega) hm2) hstop
    · obtain rfl : pos = k := by omega
      have hnot : ¬(charAt str pos ≠ NUL ∧ charAt str pos ≠ '|' ∧ charAt str pos ≠ ')') := by
        rcases hstop with h | h | h <;> simp [h]
      rw [parseConcatRest_stop str p pos hnot, spanSubstring_refl]
      rfl

/-- The concatenation level after successfully parsing a first symbol. -/
lemma parseConcatenation_go (str : List Char) (pos : Nat)
    (h : ordinary (charAt str pos) = true) :
    parseConcatenation str pos
      = parseConcatRest str (Pattern.symbol (charAt str pos)) (pos + 1) := by
  unfold parseConcatenation
  rw [show parseRepetition str pos = some (Pattern.symbol (charAt str pos), pos + 1) from by
    unfold parseRepetition parseAtomicPattern; exact if_pos h]

/-- C5: parsing b yields the Symbol node for b and parsing bc yields the
Concatenation of the two Symbol nodes; in general, from a cursor on a run of
ordinary characters ending at end-of-string, a vertical bar or a closing
parenthesis, the concatenation level parses one repetition-level pattern and
keeps parsing further ones until the stop character, folding the successive
patterns left-to-right into left-nested Concatenation nodes. -/
theorem parseConcatenation_grammar :
    parseAlternation ['b'] 0 = some (Pattern.symbol 'b', 1) ∧
    parseAlternation ['b', 'c'] 0
      = some (Pattern.concatenation (Pattern.symbol 'b') (Pattern.symbol 'c'), 2) ∧
    ∀ (str : List Char) (pos k : Nat), pos < k →
      (∀ m, pos ≤ m → m < k → ordinary (charAt str m) = true) →
      (charAt str k = NUL ∨ charAt str k = '|' ∨ charAt str k = ')') →
      parseAlternation str pos
        = some (leftNested (Pattern.symbol (charAt str pos))
            (spanSubstring str (pos + 1) k), k) := by
  have hgen : ∀ (str : List Char) (pos k : Nat), pos < k →
      (∀ m, pos ≤ m → m < k → ordinary (charAt str m) = true) →
      (charAt str k = NUL ∨ charAt str k = '|' ∨ charAt str k = ')') →
      parseAlternation str pos
        = some (leftNested (Pattern.symbol (charAt str pos))
            (spanSubstring str (pos + 1) k), k) := by
    intro str pos k hpk hord hstop
    show parseConcatenation str pos = _
    rw [parseConcatenation_go str pos (hord pos le_rfl hpk)]
    exact parseConcatRest_run str (k - (pos + 1)) (pos + 1) k _ le_rfl (by omega)
      (fun m hm1 hm2 => hord m (by omega) hm2) hstop
  refine ⟨?_, ?_, hgen⟩
  · exact hgen ['b'] 0 1 (by omega)
      (fun m hm1 hm2 => by
        obtain rfl : m = 0 := by omega
        decide)
      (Or.inl (by decide))
  · exact hgen ['b', 'c'] 0 2 (by omega)
      (fun m hm1 hm2 => by
        match m, hm2 with
        | 0, _ => decide
        | 1, _ => decide)
      (Or.inl (by decide))
